import Mathlib

/-!
# Verification of the hangman client/server protocol

Shallow embedding of the game logic of `hangman_server.c` and the packet
handling of `hangman_client.c`.  Bytes are modelled as `Nat` (the C code works
on `unsigned char` values, all below 256).  The per-session game state is the
`Session` structure (secret word, masked word, incorrect-guess list); the
guess-processing code of `handle_client` is embedded as `applyGuess` /
`guessStep`, and the whole guess loop over an incoming byte stream as
`runSession`.
-/

namespace Hangman

/-- `MAX_WORD_LEN` from hangman_server.c. -/
def MAX_WORD_LEN : Nat := 16

/-- `MAX_INCORRECT` from hangman_server.c. -/
def MAX_INCORRECT : Nat := 8

/-- The placeholder byte `'_'`. -/
def UNDERSCORE : Nat := 95

/-- C `tolower` on an unsigned-char value (ASCII). -/
def tolowerByte (b : Nat) : Nat := if 65 ≤ b ∧ b ≤ 90 then b + 32 else b

/-- C `isalpha` on an unsigned-char value (ASCII / "C" locale). -/
def isalphaByte (b : Nat) : Bool := (65 ≤ b && b ≤ 90) || (97 ≤ b && b ≤ 122)

/-- The bytes of an ASCII string literal. -/
def strBytes (s : String) : List Nat := s.data.map Char.toNat

/-- Per-client game state of `handle_client`: the secret word chosen for the
client, the masked word (same length as the secret word) and the list of
incorrect guesses so far. -/
structure Session where
  secret : List Nat
  masked : List Nat
  incorrect : List Nat
deriving DecidableEq, Repr

/-- The session status after processing a guess: the C loop continues
(playing), or breaks after the win messages (won) or lose messages (lost). -/
inductive Status where
  | playing
  | won
  | lost
deriving DecidableEq, Repr

/-- Lines 224-238 of hangman_server.c: a letter counts as already guessed when
it occurs in the masked word or in the incorrect list. -/
def alreadyGuessed (masked incorrect : List Nat) (letter : Nat) : Bool :=
  masked.contains letter || incorrect.contains letter

/-- Lines 243-248 of hangman_server.c: set `masked[i] = letter` at every
position where `secret[i] == letter`. -/
def revealPositions (secret masked : List Nat) (letter : Nat) : List Nat :=
  List.zipWith (fun sc m => if sc = letter then letter else m) secret masked

/-- Lines 221-255 of hangman_server.c: the state update performed for one
received guess byte (lowercase it; if already guessed do nothing; else reveal
matching positions, or append to the incorrect list while below the cap). -/
def applyGuess (s : Session) (raw : Nat) : Session :=
  let letter := tolowerByte raw
  if alreadyGuessed s.masked s.incorrect letter then s
  else if s.secret.contains letter then
    { s with masked := revealPositions s.secret s.masked letter }
  else if s.incorrect.length < MAX_INCORRECT then
    { s with incorrect := s.incorrect ++ [letter] }
  else s

/-- `send_message_packet` of hangman_server.c: a one-byte length header
followed by the message bytes (length capped at 255). -/
def send_message_packet (msg : List Nat) : List Nat :=
  (min msg.length 255) :: msg.take (min msg.length 255)

/-- Lines 273-281 / 291-299 of hangman_server.c: the reveal message
`"The word was"` followed by `" %c"` for each letter of the secret word. -/
def revealMessage (secret : List Nat) : List Nat :=
  strBytes "The word was" ++ (secret.map (fun c => [32, c])).flatten

/-- Lines 283-285 of hangman_server.c: the three message packets sent on a
win. -/
def winPackets (secret : List Nat) : List (List Nat) :=
  [send_message_packet (revealMessage secret),
   send_message_packet (strBytes "You Win!"),
   send_message_packet (strBytes "Game Over!")]

/-- Lines 301-303 of hangman_server.c: the three message packets sent on a
loss. -/
def losePackets (secret : List Nat) : List (List Nat) :=
  [send_message_packet (revealMessage secret),
   send_message_packet (strBytes "You Lose."),
   send_message_packet (strBytes "Game Over!")]

/-- `send_game_state` of hangman_server.c: fails when `word_len` is 0 or
exceeds `MAX_WORD_LEN`, or when the payload would overflow the 32-byte data
buffer; otherwise the game-control packet
`[0][word_len][num_incorrect][masked][incorrect]`. -/
def send_game_state (masked incorrect : List Nat) : Option (List Nat) :=
  if masked.length = 0 ∨ MAX_WORD_LEN < masked.length then none
  else if MAX_WORD_LEN + MAX_WORD_LEN < masked.length + incorrect.length then none
  else some (0 :: masked.length :: incorrect.length :: (masked ++ incorrect))

/-- Lines 258-264 of hangman_server.c: the word is fully revealed when no
placeholder remains in the masked word. -/
def allRevealed (masked : List Nat) : Bool := !(masked.contains UNDERSCORE)

/-- Lines 221-311 of hangman_server.c: process one guess byte — update the
state, then evaluate win, then loss, then send the updated board.  Returns the
new state, the loop status, and the list of wire packets sent (empty in the
continue case only when `send_game_state` fails). -/
def guessStep (s : Session) (raw : Nat) : Session × Status × List (List Nat) :=
  let s2 := applyGuess s raw
  if allRevealed s2.masked then (s2, Status.won, winPackets s2.secret)
  else if MAX_INCORRECT ≤ s2.incorrect.length then (s2, Status.lost, losePackets s2.secret)
  else
    match send_game_state s2.masked s2.incorrect with
    | some p => (s2, Status.playing, [p])
    | none => (s2, Status.playing, [])

/-- Lines 192-312 of hangman_server.c: the guess loop, run over the list of
bytes still available on the connection (the list ends where the client closes
the stream).  Reads a one-byte guess length; if it is not 1, drains that many
bytes and continues; otherwise reads the guess byte and runs `guessStep`,
continuing only while the status is still playing and the board packet was
sent successfully (the C code `break`s both after the win/lose messages and on
a failed `send_game_state`). -/
def runSession (s : Session) (input : List Nat) : Session × Status × List (List Nat) :=
  match input with
  | [] => (s, Status.playing, [])
  | glen :: rest =>
    if glen = 1 then
      match rest with
      | [] => (s, Status.playing, [])
      | letter :: rest2 =>
        let g := guessStep s letter
        if g.2.1 = Status.playing ∧ g.2.2 ≠ [] then
          let r := runSession g.1 rest2
          (r.1, r.2.1, g.2.2 ++ r.2.2)
        else g
    else
      runSession s (List.drop glen rest)
termination_by input.length
decreasing_by
  · simp; omega
  · simp [List.length_drop]; omega

/-- Lines 160-189 of hangman_server.c: after the welcome message the server
reads one byte from the client and — without inspecting its value — picks a
word, initializes the all-placeholder masked word and the empty incorrect
list, and sends the initial game-control packet.  `b` is the byte read;
`secret` is the word chosen by the word selector. -/
def handle_client_start (b : Nat) (secret : List Nat) : Session × List (List Nat) :=
  let _ := b
  let masked := List.replicate secret.length UNDERSCORE
  let s : Session := { secret := secret, masked := masked, incorrect := [] }
  (s, match send_game_state masked [] with
      | some p => [p]
      | none => [])

/-- Lines 61-86 of hangman_server.c (`load_words`): a line of the word file is
accepted exactly when it is nonempty, at most `MAX_WORD_LEN` long, and wholly
alphabetic. -/
def load_words_accepts (line : List Nat) : Bool :=
  decide (line.length ≠ 0) && decide (line.length ≤ MAX_WORD_LEN) && line.all isalphaByte

/-- The packets the client's `recv_and_print_one_packet` distinguishes
(return codes 1, 2, 3, 4 of hangman_client.c). -/
inductive ClientPacket where
  | overloaded
  | gameOver
  | board (word incorrect : List Nat)
  | message (bytes : List Nat)
deriving DecidableEq, Repr

/-- `recv_and_print_one_packet` of hangman_client.c, as a decoder on the
stream of remaining bytes: returns the classified packet and the rest of the
stream, or `none` on a transport or protocol error (short read, `word_len > 8`,
or data longer than the 16-byte buffer). -/
def recv_and_print_one_packet (input : List Nat) :
    Option (ClientPacket × List Nat) :=
  match input with
  | [] => none
  | flag :: rest =>
    if flag > 0 then
      if rest.length < flag then none
      else
        let data := rest.take flag
        let rest2 := rest.drop flag
        if flag = (strBytes "server-overloaded").length ∧ data = strBytes "server-overloaded" then
          some (ClientPacket.overloaded, rest2)
        else if flag = (strBytes "Game Over!").length ∧ data = strBytes "Game Over!" then
          some (ClientPacket.gameOver, rest2)
        else
          some (ClientPacket.message data, rest2)
    else
      match rest with
      | wl :: ni :: rest2 =>
        if 8 < wl then none
        else if 16 < wl + ni then none
        else if rest2.length < wl + ni then none
        else
          some (ClientPacket.board (rest2.take wl) ((rest2.drop wl).take ni),
                rest2.drop (wl + ni))
      | _ => none

/-- Lines 194-213 of hangman_client.c: given the line read at the start
prompt, the client sends the one-byte start signal `[0]` and proceeds to the
board loop exactly when the first character of the line is `'y'` or `'Y'`;
otherwise it sends nothing and exits.  Returns (bytes sent, proceeds?). -/
def promptStart (line : List Nat) : List Nat × Bool :=
  match line with
  | c :: _ => if c = 121 ∨ c = 89 then ([0], true) else ([], false)
  | [] => ([], false)

/-- The masked word is consistent with the secret word: same length, and each
position is either the placeholder or the secret's letter at that position.
This holds for the initial all-placeholder mask and is preserved by guesses. -/
def consistentMask (s : Session) : Bool :=
  decide (s.masked.length = s.secret.length) &&
  (List.zip s.masked s.secret).all (fun p => p.1 == UNDERSCORE || p.1 == p.2)

/-- Prop-level mask invariant: the placeholder never occurs in the secret
word, the masked word has the secret's length, and each masked position holds
the placeholder or the secret's letter there. -/
def maskInv (s : Session) : Prop :=
  UNDERSCORE ∉ s.secret ∧ s.masked.length = s.secret.length ∧
  ∀ i : Nat, s.masked[i]? = some UNDERSCORE ∨ s.masked[i]? = s.secret[i]?

theorem runSession_nil (s : Session) : runSession s [] = (s, Status.playing, []) := by
  simp [runSession]

theorem runSession_cons_ne (s : Session) (glen : Nat) (rest : List Nat) (h : glen ≠ 1) :
    runSession s (glen :: rest) = runSession s (List.drop glen rest) := by
  rw [runSession.eq_def]
  simp [h]

theorem runSession_one_nil (s : Session) : runSession s [1] = (s, Status.playing, []) := by
  rw [runSession.eq_def]
  simp

theorem runSession_one_cons (s : Session) (letter : Nat) (rest2 : List Nat) :
    runSession s (1 :: letter :: rest2) =
      if (guessStep s letter).2.1 = Status.playing ∧ (guessStep s letter).2.2 ≠ [] then
        ((runSession (guessStep s letter).1 rest2).1,
         (runSession (guessStep s letter).1 rest2).2.1,
         (guessStep s letter).2.2 ++ (runSession (guessStep s letter).1 rest2).2.2)
      else guessStep s letter := by
  rw [runSession]
  simp

theorem guessStep_fst (s : Session) (raw : Nat) :
    (guessStep s raw).1 = applyGuess s raw := by
  simp only [guessStep]
  split_ifs <;> try rfl
  split <;> rfl

theorem applyGuess_secret (s : Session) (raw : Nat) :
    (applyGuess s raw).secret = s.secret := by
  simp only [applyGuess]
  split_ifs <;> rfl

theorem applyGuess_incorrect_cap (s : Session) (raw : Nat)
    (h : s.incorrect.length ≤ MAX_INCORRECT) :
    (applyGuess s raw).incorrect.length ≤ MAX_INCORRECT := by
  simp only [applyGuess]
  split_ifs with h1 h2 h3
  · exact h
  · exact h
  · simp only [List.length_append, List.length_cons, List.length_nil]
    omega
  · exact h

theorem applyGuess_mask_step (s : Session) (raw : Nat) (h : maskInv s) :
    maskInv (applyGuess s raw) ∧
    (∀ i : Nat, s.masked[i]? ≠ some UNDERSCORE →
      (applyGuess s raw).masked[i]? = s.masked[i]?) ∧
    (applyGuess s raw).masked.count UNDERSCORE ≤ s.masked.count UNDERSCORE := by
  obtain ⟨hsec, hlen, hcons⟩ := h
  simp only [applyGuess]
  split_ifs with h1 h2 h3
  · exact ⟨⟨hsec, hlen, hcons⟩, fun i _ => rfl, Nat.le_refl _⟩
  · -- reveal branch
    have hmem : tolowerByte raw ∈ s.secret := List.elem_iff.mp h2
    have hl95 : tolowerByte raw ≠ UNDERSCORE := fun he => hsec (he ▸ hmem)
    refine ⟨⟨hsec, ?_, ?_⟩, ?_, ?_⟩
    · simp [revealPositions, List.length_zipWith]
      omega
    · intro i
      rcases Nat.lt_or_ge i s.secret.length with hi | hi
      · have him : i < s.masked.length := by omega
        obtain ⟨a, ha⟩ : ∃ a, s.secret[i]? = some a := ⟨_, List.getElem?_eq_getElem hi⟩
        obtain ⟨b, hb⟩ : ∃ b, s.masked[i]? = some b := ⟨_, List.getElem?_eq_getElem him⟩
        have hvz : (revealPositions s.secret s.masked (tolowerByte raw))[i]? =
            some (if a = tolowerByte raw then tolowerByte raw else b) := by
          simp only [revealPositions, List.getElem?_zipWith, ha, hb]
        rw [hvz, ha]
        by_cases he : a = tolowerByte raw
        · right
          simp [he]
        · rcases hcons i with hc | hc
          · left
            rw [hb] at hc
            simp only [Option.some.injEq] at hc
            simp [he, hc]
          · right
            rw [hb, ha] at hc
            simp only [Option.some.injEq] at hc
            simp [he, hc]
      · have him : s.masked.length ≤ i := by omega
        have hz : (revealPositions s.secret s.masked (tolowerByte raw)).length ≤ i := by
          simp [revealPositions, List.length_zipWith]
          omega
        rw [List.getElem?_eq_none hz]
        right
        rw [List.getElem?_eq_none hi]
    · intro i hne
      rcases Nat.lt_or_ge i s.secret.length with hi | hi
      · have him : i < s.masked.length := by omega
        obtain ⟨a, ha⟩ : ∃ a, s.secret[i]? = some a := ⟨_, List.getElem?_eq_getElem hi⟩
        obtain ⟨b, hb⟩ : ∃ b, s.masked[i]? = some b := ⟨_, List.getElem?_eq_getElem him⟩
        have hvz : (revealPositions s.secret s.masked (tolowerByte raw))[i]? =
            some (if a = tolowerByte raw then tolowerByte raw else b) := by
          simp only [revealPositions, List.getElem?_zipWith, ha, hb]
        rw [hvz, hb]
        rcases hcons i with hc | hc
        · exact absurd hc hne
        · rw [hb, ha] at hc
          simp only [Option.some.injEq] at hc
          by_cases he : a = tolowerByte raw
          · simp [he, hc]
          · simp [he]
      · have him : s.masked.length ≤ i := by omega
        have hz : (revealPositions s.secret s.masked (tolowerByte raw)).length ≤ i := by
          simp [revealPositions, List.length_zipWith]
          omega
        rw [List.getElem?_eq_none hz, List.getElem?_eq_none him]
    · -- count
      have : ∀ (sec m : List Nat),
          (revealPositions sec m (tolowerByte raw)).count UNDERSCORE ≤ m.count UNDERSCORE := by
        intro sec
        induction sec with
        | nil => intro m; simp [revealPositions]
        | cons a sec ih =>
          intro m
          cases m with
          | nil => simp [revealPositions]
          | cons b m =>
            have h2 := ih m
            simp only [revealPositions, List.zipWith_cons_cons, List.count_cons] at *
            by_cases he : a = tolowerByte raw
            · simp only [he, if_pos rfl]
              have : ((tolowerByte raw == UNDERSCORE) = false) := by
                simp [hl95]
              simp [this]
              omega
            · simp only [if_neg he]
              omega
      exact this s.secret s.masked
  · exact ⟨⟨hsec, hlen, hcons⟩, fun i _ => rfl, Nat.le_refl _⟩
  · exact ⟨⟨hsec, hlen, hcons⟩, fun i _ => rfl, Nat.le_refl _⟩

/-- Master lemma: any reflexive transitive relation that holds across a single
`applyGuess` step holds between the state entering the guess loop and the
state it leaves with, for every input byte stream. -/
theorem runSession_rel (R : Session → Session → Prop)
    (hrefl : ∀ s, R s s)
    (htrans : ∀ {a b c : Session}, R a b → R b c → R a c)
    (hstep : ∀ s raw, R s (applyGuess s raw)) :
    ∀ (n : Nat) (input : List Nat), input.length ≤ n →
      ∀ s : Session, R s ((runSession s input).1) := by
  intro n
  induction n with
  | zero =>
    intro input hlen s
    have h0 : input = [] := List.eq_nil_of_length_eq_zero (Nat.le_zero.mp hlen)
    subst h0
    rw [runSession_nil]
    exact hrefl s
  | succ n ih =>
    intro input hlen s
    match input with
    | [] =>
      rw [runSession_nil]
      exact hrefl s
    | glen :: rest =>
      by_cases hg : glen = 1
      · subst hg
        match rest with
        | [] =>
          rw [runSession_one_nil]
          exact hrefl s
        | letter :: rest2 =>
          rw [runSession_one_cons]
          by_cases hc : (guessStep s letter).2.1 = Status.playing ∧ (guessStep s letter).2.2 ≠ []
          · rw [if_pos hc]
            have h1 : R s (guessStep s letter).1 := by
              rw [guessStep_fst]
              exact hstep s letter
            have h2 : R (guessStep s letter).1 ((runSession (guessStep s letter).1 rest2).1) := by
              apply ih
              simp only [List.length_cons] at hlen
              omega
            exact htrans h1 h2
          · rw [if_neg hc, guessStep_fst]
            exact hstep s letter
      · rw [runSession_cons_ne s glen rest hg]
        apply ih
        simp only [List.length_cons] at hlen
        simp only [List.length_drop]
        omega

/-- The final state of the guess loop, for any start state and input stream,
is related to the start state by: mask invariant preserved, secret unchanged,
revealed positions unchanged, placeholder count non-increasing, and the
incorrect-list cap preserved. -/
theorem runSession_inv (s : Session) (input : List Nat) :
    (maskInv s →
      maskInv ((runSession s input).1) ∧
      ((runSession s input).1).secret = s.secret ∧
      (∀ i : Nat, s.masked[i]? ≠ some UNDERSCORE →
        ((runSession s input).1).masked[i]? = s.masked[i]?) ∧
      ((runSession s input).1).masked.count UNDERSCORE ≤ s.masked.count UNDERSCORE) ∧
    (s.incorrect.length ≤ MAX_INCORRECT →
      ((runSession s input).1).incorrect.length ≤ MAX_INCORRECT) := by
  have main := runSession_rel
    (fun a b =>
      (maskInv a →
        maskInv b ∧ b.secret = a.secret ∧
        (∀ i : Nat, a.masked[i]? ≠ some UNDERSCORE → b.masked[i]? = a.masked[i]?) ∧
        b.masked.count UNDERSCORE ≤ a.masked.count UNDERSCORE) ∧
      (a.incorrect.length ≤ MAX_INCORRECT → b.incorrect.length ≤ MAX_INCORRECT))
    (fun s => ⟨fun hi => ⟨hi, rfl, fun _ _ => rfl, Nat.le_refl _⟩, fun hc => hc⟩)
    (fun {a b c} hab hbc =>
      ⟨fun ha => by
        obtain ⟨hb, hsec1, hpt1, hcnt1⟩ := hab.1 ha
        obtain ⟨hc2, hsec2, hpt2, hcnt2⟩ := hbc.1 hb
        refine ⟨hc2, hsec2.trans hsec1, fun i hne => ?_, Nat.le_trans hcnt2 hcnt1⟩
        rw [hpt2 i (by rw [hpt1 i hne]; exact hne), hpt1 i hne],
       fun ha => hbc.2 (hab.2 ha)⟩)
    (fun s raw =>
      ⟨fun hi => by
        obtain ⟨h1, h2, h3⟩ := applyGuess_mask_step s raw hi
        exact ⟨h1, applyGuess_secret s raw, h2, h3⟩,
       fun hc => applyGuess_incorrect_cap s raw hc⟩)
    input.length input (Nat.le_refl _) s
  exact main

/-- The decidable `consistentMask` check, together with the secret word being
placeholder-free, implies the Prop-level mask invariant. -/
theorem consistentMask_maskInv (s : Session)
    (hsec : s.secret.contains UNDERSCORE = false) (hc : consistentMask s = true) :
    maskInv s := by
  simp only [consistentMask, Bool.and_eq_true, decide_eq_true_eq, List.all_eq_true] at hc
  obtain ⟨hlen, hall⟩ := hc
  refine ⟨?_, hlen, ?_⟩
  · intro hmem
    have he : s.secret.contains UNDERSCORE = true := List.elem_iff.mpr hmem
    rw [hsec] at he
    exact Bool.noConfusion he
  · intro i
    rcases Nat.lt_or_ge i s.masked.length with hi | hi
    · obtain ⟨b, hb⟩ : ∃ b, s.masked[i]? = some b := ⟨_, List.getElem?_eq_getElem hi⟩
      obtain ⟨a, ha⟩ : ∃ a, s.secret[i]? = some a :=
        ⟨_, List.getElem?_eq_getElem (by omega : i < s.secret.length)⟩
      have hmemz : (b, a) ∈ List.zip s.masked s.secret := by
        rw [List.mem_iff_getElem?]
        exact ⟨i, by rw [List.getElem?_zip_eq_some]; exact ⟨hb, ha⟩⟩
      have hp := hall _ hmemz
      simp only [Bool.or_eq_true, beq_iff_eq] at hp
      rcases hp with hp | hp
      · left
        rw [hb, hp]
      · right
        rw [hb, ha, hp]
    · right
      rw [List.getElem?_eq_none hi, List.getElem?_eq_none (by omega : s.secret.length ≤ i)]

/-- Helper: an already-guessed letter leaves the state unchanged, and in a
mid-game state (a placeholder remains, incorrect list below the cap, word
length within bound) the server answers with the game-control packet encoding
the unchanged state. -/
theorem guessStep_noop (s : Session) (raw : Nat)
    (halready : alreadyGuessed s.masked s.incorrect (tolowerByte raw) = true)
    (hph : s.masked.contains UNDERSCORE = true)
    (hinc : s.incorrect.length < MAX_INCORRECT)
    (hwl : s.masked.length ≤ MAX_WORD_LEN) :
    applyGuess s raw = s ∧
    send_game_state s.masked s.incorrect =
      some (0 :: s.masked.length :: s.incorrect.length :: (s.masked ++ s.incorrect)) ∧
    guessStep s raw =
      (s, Status.playing,
       [0 :: s.masked.length :: s.incorrect.length :: (s.masked ++ s.incorrect)]) := by
  have happ : applyGuess s raw = s := by
    simp only [applyGuess]
    rw [if_pos halready]
  have hne : s.masked.length ≠ 0 := by
    intro h0
    rw [List.length_eq_zero] at h0
    rw [h0] at hph
    simp at hph
  have hsg : send_game_state s.masked s.incorrect =
      some (0 :: s.masked.length :: s.incorrect.length :: (s.masked ++ s.incorrect)) := by
    simp only [send_game_state, MAX_WORD_LEN] at hwl ⊢
    simp only [MAX_INCORRECT] at hinc
    rw [if_neg (by omega), if_neg (by omega)]
  refine ⟨happ, hsg, ?_⟩
  simp only [guessStep, happ]
  rw [if_neg, if_neg]
  · rw [hsg]
  · simp only [MAX_INCORRECT] at hinc
    simp only [MAX_INCORRECT]
    omega
  · simp only [allRevealed, hph]
    simp

/-- Helper: when, after applying the guess, a placeholder remains but the
incorrect list has reached the cap, the step is the Lost transition with the
three lose message packets. -/
theorem guessStep_lost (s : Session) (raw : Nat)
    (hph : (applyGuess s raw).masked.contains UNDERSCORE = true)
    (hcap : MAX_INCORRECT ≤ (applyGuess s raw).incorrect.length) :
    guessStep s raw =
      (applyGuess s raw, Status.lost, losePackets (applyGuess s raw).secret) := by
  simp only [guessStep]
  rw [if_neg, if_pos hcap]
  simp only [allRevealed, hph]
  simp

/-- C1: for every secret word and every byte stream fed to the server's guess
loop, the masked word never loses a previously revealed letter (a position
holding a letter other than the placeholder still holds it afterwards), and
the number of placeholder positions is non-increasing. -/
theorem masked_never_unrevealed (s : Session) (input : List Nat)
    (hsec : s.secret.contains UNDERSCORE = false)
    (hc : consistentMask s = true) :
    (∀ i : Nat, s.masked[i]? ≠ some UNDERSCORE →
      ((runSession s input).1).masked[i]? = s.masked[i]?) ∧
    ((runSession s input).1).masked.count UNDERSCORE ≤ s.masked.count UNDERSCORE := by
  have h := (runSession_inv s input).1 (consistentMask_maskInv s hsec hc)
  exact ⟨h.2.2.1, h.2.2.2⟩

theorem masked_never_unrevealed_witness :
    (∀ i : Nat, (⟨[99, 97, 116], [99, 95, 95], []⟩ : Session).masked[i]? ≠ some UNDERSCORE →
      ((runSession ⟨[99, 97, 116], [99, 95, 95], []⟩ [1, 97, 1, 98]).1).masked[i]? =
        (⟨[99, 97, 116], [99, 95, 95], []⟩ : Session).masked[i]?) ∧
    ((runSession ⟨[99, 97, 116], [99, 95, 95], []⟩ [1, 97, 1, 98]).1).masked.count UNDERSCORE ≤
      (⟨[99, 97, 116], [99, 95, 95], []⟩ : Session).masked.count UNDERSCORE :=
  masked_never_unrevealed ⟨[99, 97, 116], [99, 95, 95], []⟩ [1, 97, 1, 98]
    (by decide) (by decide)

/-- C2: in a mid-game state (placeholder remaining, incorrect list below the
cap, word length within bound), a guess of a letter already present in the
masked word or the incorrect list changes nothing, and the server answers with
the game-control packet encoding the unchanged state — identical to the packet
it last sent for this state. -/
theorem repeated_guess_noop (s : Session) (raw : Nat)
    (halready : alreadyGuessed s.masked s.incorrect (tolowerByte raw) = true)
    (hph : s.masked.contains UNDERSCORE = true)
    (hinc : s.incorrect.length < MAX_INCORRECT)
    (hwl : s.masked.length ≤ MAX_WORD_LEN) :
    applyGuess s raw = s ∧
    send_game_state s.masked s.incorrect =
      some (0 :: s.masked.length :: s.incorrect.length :: (s.masked ++ s.incorrect)) ∧
    guessStep s raw =
      (s, Status.playing,
       [0 :: s.masked.length :: s.incorrect.length :: (s.masked ++ s.incorrect)]) :=
  guessStep_noop s raw halready hph hinc hwl

theorem repeated_guess_noop_witness :
    applyGuess ⟨[99, 97, 116], [99, 95, 95], [120]⟩ 99 = ⟨[99, 97, 116], [99, 95, 95], [120]⟩ ∧
    send_game_state [99, 95, 95] [120] = some [0, 3, 1, 99, 95, 95, 120] ∧
    guessStep ⟨[99, 97, 116], [99, 95, 95], [120]⟩ 99 =
      (⟨[99, 97, 116], [99, 95, 95], [120]⟩, Status.playing, [[0, 3, 1, 99, 95, 95, 120]]) :=
  repeated_guess_noop ⟨[99, 97, 116], [99, 95, 95], [120]⟩ 99
    (by decide) (by decide) (by decide) (by decide)

/-- C3: the incorrect list never grows beyond the cap of 8; and when a guess
has just brought it to the cap while a placeholder remains, the server
performs the Lost transition (reveal message, "You Lose.", "Game Over!") and
ends the session without reading any further guess from the stream. -/
theorem incorrect_cap_and_lost :
    (∀ (s : Session) (input : List Nat), s.incorrect.length ≤ MAX_INCORRECT →
      ((runSession s input).1).incorrect.length ≤ MAX_INCORRECT) ∧
    (∀ (s : Session) (raw : Nat) (rest : List Nat),
      (applyGuess s raw).incorrect.length = MAX_INCORRECT →
      (applyGuess s raw).masked.contains UNDERSCORE = true →
      runSession s (1 :: raw :: rest) =
        (applyGuess s raw, Status.lost, losePackets (applyGuess s raw).secret)) := by
  constructor
  · intro s input hcap
    exact (runSession_inv s input).2 hcap
  · intro s raw rest hcap hph
    have hg := guessStep_lost s raw hph (Nat.le_of_eq hcap.symm)
    rw [runSession_one_cons, hg]
    simp

theorem incorrect_cap_and_lost_witness :
    ((runSession ⟨[99, 97, 116], [95, 95, 95], [98, 100, 101, 102]⟩ [1, 98]).1).incorrect.length ≤
        MAX_INCORRECT ∧
    runSession ⟨[99, 97, 116], [95, 95, 95], [98, 100, 101, 102, 103, 104, 105]⟩
        [1, 106, 1, 97, 1, 116] =
      (applyGuess ⟨[99, 97, 116], [95, 95, 95], [98, 100, 101, 102, 103, 104, 105]⟩ 106,
       Status.lost,
       losePackets (applyGuess ⟨[99, 97, 116], [95, 95, 95], [98, 100, 101, 102, 103, 104, 105]⟩
          106).secret) :=
  ⟨incorrect_cap_and_lost.1 ⟨[99, 97, 116], [95, 95, 95], [98, 100, 101, 102]⟩ [1, 98] (by decide),
   incorrect_cap_and_lost.2 ⟨[99, 97, 116], [95, 95, 95], [98, 100, 101, 102, 103, 104, 105]⟩
     106 [1, 97, 1, 116] (by decide) (by decide)⟩

/-- C4: a guess packet whose declared length byte is not 1 makes the server
drain exactly that many bytes from the stream, send nothing, change nothing,
and continue in the guess loop with the remaining stream. -/
theorem malformed_guess_drained (s : Session) (glen : Nat) (bytes rest : List Nat)
    (h : glen ≠ 1) (hlen : bytes.length = glen) :
    runSession s (glen :: (bytes ++ rest)) = runSession s rest := by
  rw [runSession_cons_ne s glen _ h, List.drop_left' hlen]

theorem malformed_guess_drained_witness :
    runSession ⟨[99, 97, 116], [95, 95, 95], []⟩ (3 :: ([65, 66, 67] ++ [1, 120])) =
      runSession ⟨[99, 97, 116], [95, 95, 95], []⟩ [1, 120] :=
  malformed_guess_drained ⟨[99, 97, 116], [95, 95, 95], []⟩ 3 [65, 66, 67] [1, 120]
    (by decide) (by decide)

/-- C5: the server's word loader accepts every nonempty alphabetic word of
length up to 16, while the client rejects (fatal error, `none`) any
game-control packet the server encodes for a word of length 9 or more. -/
theorem word_length_ceiling_mismatch :
    (∀ w : List Nat, w.length ≠ 0 → w.length ≤ MAX_WORD_LEN → w.all isalphaByte = true →
      load_words_accepts w = true) ∧
    (∀ (masked incorrect p : List Nat), 9 ≤ masked.length →
      send_game_state masked incorrect = some p →
      recv_and_print_one_packet p = none) := by
  constructor
  · intro w h1 h2 h3
    simp [load_words_accepts, h1, h2, h3]
  · intro masked incorrect p h9 hsg
    simp only [send_game_state] at hsg
    split_ifs at hsg with hA hB
    have hp := Option.some.inj hsg
    subst hp
    simp only [recv_and_print_one_packet]
    rw [if_neg (by omega)]
    rw [if_pos (by omega : 8 < masked.length)]

theorem word_length_ceiling_mismatch_witness :
    load_words_accepts [97, 98, 99, 100, 101, 102, 103, 104, 105] = true ∧
    recv_and_print_one_packet
        [0, 9, 0, 95, 95, 95, 95, 95, 95, 95, 95, 95] = none :=
  ⟨word_length_ceiling_mismatch.1 [97, 98, 99, 100, 101, 102, 103, 104, 105]
     (by decide) (by decide) (by decide),
   word_length_ceiling_mismatch.2 [95, 95, 95, 95, 95, 95, 95, 95, 95] [] _
     (by decide) (by decide)⟩

/-- C6: round-trip identity — encoding a board whose word length is in [1, 8]
and whose incorrect list has at most 8 entries with the server's
`send_game_state`, then decoding with the client's packet reader, returns the
original masked-word bytes and incorrect-letter bytes unchanged (and consumes
the whole packet). -/
theorem game_control_roundtrip (masked incorrect : List Nat)
    (h1 : masked.length ≠ 0) (h2 : masked.length ≤ 8) (h3 : incorrect.length ≤ 8) :
    send_game_state masked incorrect =
      some (0 :: masked.length :: incorrect.length :: (masked ++ incorrect)) ∧
    recv_and_print_one_packet
        (0 :: masked.length :: incorrect.length :: (masked ++ incorrect)) =
      some (ClientPacket.board masked incorrect, []) := by
  constructor
  · simp only [send_game_state, MAX_WORD_LEN]
    rw [if_neg (by omega), if_neg (by omega)]
  · simp only [recv_and_print_one_packet]
    rw [if_neg (by omega)]
    rw [if_neg (by omega : ¬ 8 < masked.length),
        if_neg (by omega : ¬ 16 < masked.length + incorrect.length),
        if_neg (by rw [List.length_append]; omega)]
    rw [List.take_left' rfl, List.drop_left' rfl, List.take_length]
    have hfull : masked.length + incorrect.length = (masked ++ incorrect).length :=
      (List.length_append masked incorrect).symm
    rw [hfull, List.drop_length]

theorem game_control_roundtrip_witness :
    send_game_state [99, 95, 95] [120, 121] = some [0, 3, 2, 99, 95, 95, 120, 121] ∧
    recv_and_print_one_packet [0, 3, 2, 99, 95, 95, 120, 121] =
      some (ClientPacket.board [99, 95, 95] [120, 121], []) :=
  game_control_roundtrip [99, 95, 95] [120, 121] (by decide) (by decide) (by decide)

/-- C7: for the secret word "cat" and the guesses c, a, t: after c the masked
word is "c__" with empty incorrect list and the loop still playing (board
packet sent); after a it is "ca_"; after t it is "cat", the step is Won, and
the server sends, in order, the message packets "The word was c a t",
"You Win!" and "Game Over!". -/
theorem cat_win_scenario :
    guessStep ⟨strBytes "cat", [95, 95, 95], []⟩ 99 =
      (⟨strBytes "cat", [99, 95, 95], []⟩, Status.playing, [[0, 3, 0, 99, 95, 95]]) ∧
    guessStep ⟨strBytes "cat", [99, 95, 95], []⟩ 97 =
      (⟨strBytes "cat", [99, 97, 95], []⟩, Status.playing, [[0, 3, 0, 99, 97, 95]]) ∧
    guessStep ⟨strBytes "cat", [99, 97, 95], []⟩ 116 =
      (⟨strBytes "cat", [99, 97, 116], []⟩, Status.won,
       [send_message_packet (strBytes "The word was c a t"),
        send_message_packet (strBytes "You Win!"),
        send_message_packet (strBytes "Game Over!")]) := by
  decide

/-- C8, counterexample: for the input line "yes", the client sends the start
signal although the answer is neither "y" nor "Y" — the code inspects only the
first character of the line, so the claim "exactly when the answer is a
case-insensitive y" fails. -/
theorem promptStart_yes_cex :
    promptStart (strBytes "yes" ++ [10]) = ([0], true) ∧
    strBytes "yes" ≠ strBytes "y" ∧ strBytes "yes" ≠ strBytes "Y" := by
  decide

/-- C8, amended: for every input line, the client sends the start signal `[0]`
and proceeds exactly when the first character of the answer is 'y' or 'Y'
(only the first character is inspected); for any other line it sends nothing
and stops. -/
theorem promptStart_first_char (answer : List Nat) :
    (promptStart (answer ++ [10]) = ([0], true) ↔
      (∃ t : List Nat, answer = 121 :: t ∨ answer = 89 :: t)) ∧
    (promptStart (answer ++ [10]) = ([0], true) ∨
      promptStart (answer ++ [10]) = ([], false)) := by
  cases answer with
  | nil =>
    constructor
    · constructor
      · intro h
        simp [promptStart] at h
      · rintro ⟨t, ht | ht⟩ <;> simp at ht
    · right
      simp [promptStart]
  | cons c t =>
    simp only [List.cons_append, promptStart]
    by_cases hc : c = 121 ∨ c = 89
    · rw [if_pos hc]
      refine ⟨⟨fun _ => ⟨t, ?_⟩, fun _ => rfl⟩, Or.inl rfl⟩
      rcases hc with h | h
      · left
        rw [h]
      · right
        rw [h]
    · rw [if_neg hc]
      refine ⟨⟨fun h => ?_, fun h => ?_⟩, Or.inr rfl⟩
      · simp at h
      · obtain ⟨t', ht⟩ := h
        rcases ht with ht | ht
        · injection ht with h1 _
          exact absurd (Or.inl h1) hc
        · injection ht with h1 _
          exact absurd (Or.inr h1) hc

theorem promptStart_first_char_witness :
    (promptStart ([121] ++ [10]) = ([0], true) ↔
      (∃ t : List Nat, [121] = 121 :: t ∨ [121] = 89 :: t)) ∧
    (promptStart ([121] ++ [10]) = ([0], true) ∨
      promptStart ([121] ++ [10]) = ([], false)) :=
  promptStart_first_char [121]

/-- C9: whatever the value of the first byte the server reads after the
welcome message, it starts the game: the session moves to the all-placeholder
masked word with empty incorrect list and the initial game-control packet is
sent — the byte's value is never inspected. -/
theorem start_byte_ignored (b : Nat) (secret : List Nat)
    (h1 : secret.length ≠ 0) (h2 : secret.length ≤ MAX_WORD_LEN) :
    handle_client_start b secret = handle_client_start 0 secret ∧
    handle_client_start b secret =
      ({ secret := secret, masked := List.replicate secret.length UNDERSCORE,
         incorrect := [] },
       [0 :: secret.length :: 0 :: List.replicate secret.length UNDERSCORE]) := by
  refine ⟨rfl, ?_⟩
  simp only [handle_client_start]
  have hsg : send_game_state (List.replicate secret.length UNDERSCORE) [] =
      some (0 :: secret.length :: 0 :: List.replicate secret.length UNDERSCORE) := by
    simp only [MAX_WORD_LEN] at h2
    simp only [send_game_state, List.length_replicate, List.length_nil, List.append_nil,
      MAX_WORD_LEN]
    rw [if_neg (by omega), if_neg (by omega)]
  rw [hsg]

theorem start_byte_ignored_witness :
    handle_client_start 55 [99, 97, 116] = handle_client_start 0 [99, 97, 116] ∧
    handle_client_start 55 [99, 97, 116] =
      ({ secret := [99, 97, 116], masked := List.replicate 3 UNDERSCORE, incorrect := [] },
       [0 :: 3 :: 0 :: List.replicate 3 UNDERSCORE]) :=
  start_byte_ignored 55 [99, 97, 116] (by decide) (by decide)

/-- C10: in a mid-game state whose masked word still has a placeholder, a
guess of the '_' byte is classified as already guessed (it matches a
placeholder position), so the state is unchanged, nothing is appended to the
incorrect list, and the server resends the unchanged game-control packet. -/
theorem underscore_guess_noop (s : Session)
    (hph : s.masked.contains UNDERSCORE = true)
    (hinc : s.incorrect.length < MAX_INCORRECT)
    (hwl : s.masked.length ≤ MAX_WORD_LEN) :
    alreadyGuessed s.masked s.incorrect (tolowerByte UNDERSCORE) = true ∧
    applyGuess s UNDERSCORE = s ∧
    guessStep s UNDERSCORE =
      (s, Status.playing,
       [0 :: s.masked.length :: s.incorrect.length :: (s.masked ++ s.incorrect)]) := by
  have halready : alreadyGuessed s.masked s.incorrect (tolowerByte UNDERSCORE) = true := by
    have ht : tolowerByte UNDERSCORE = UNDERSCORE := by decide
    rw [ht]
    simp only [alreadyGuessed, Bool.or_eq_true]
    left
    exact hph
  have h := guessStep_noop s UNDERSCORE halready hph hinc hwl
  exact ⟨halready, h.1, h.2.2⟩

theorem underscore_guess_noop_witness :
    alreadyGuessed [99, 95, 95] [120] (tolowerByte UNDERSCORE) = true ∧
    applyGuess ⟨[99, 97, 116], [99, 95, 95], [120]⟩ UNDERSCORE =
      ⟨[99, 97, 116], [99, 95, 95], [120]⟩ ∧
    guessStep ⟨[99, 97, 116], [99, 95, 95], [120]⟩ UNDERSCORE =
      (⟨[99, 97, 116], [99, 95, 95], [120]⟩, Status.playing,
       [[0, 3, 1, 99, 95, 95, 120]]) :=
  underscore_guess_noop ⟨[99, 97, 116], [99, 95, 95], [120]⟩
    (by decide) (by decide) (by decide)

end Hangman
